import Mathlib

/-!
Shallow embedding of the schema-graph document model and edit orchestrator of
the visualdb application (src/App.tsx, src/components/SchemaInputPanel.tsx,
src/components/Scene3D.tsx), together with proofs of the behavioural claims
about its table/relation/scenario consistency rules.

JavaScript records (plain objects used as string-keyed maps) are modelled as
association lists with insert-or-replace update, JS `Set` insertion-order
iteration as first-occurrence deduplication, and optional/undefined values as
`Option`.  Numbers appearing in documents (coordinates, step orders) are
modelled as `Int`; all arithmetic the code performs on them is exact.
-/

namespace VisualDB

/-- Foreign-key reference carried by a column (types.ts `Column.foreignKey`). -/
structure ForeignKey where
  table : String
  column : String
  onUpdate : Option String := none
  onDelete : Option String := none
deriving DecidableEq, Repr

/-- A table column (types.ts `Column`). -/
structure Column where
  name : String
  type : String
  nullable : Bool := true
  isPrimary : Bool := false
  isUnique : Bool := false
  isIndexed : Bool := false
  comment : Option String := none
  foreignKey : Option ForeignKey := none
deriving DecidableEq, Repr

/-- A table index (types.ts `Index`). -/
structure Index where
  name : String
  columns : List String
  unique : Bool
  type : Option String := none
deriving DecidableEq, Repr

/-- A table (types.ts `Table`). -/
structure Table where
  name : String
  domain : String := "public"
  columns : List Column := []
  primaryKey : List String := []
  indexes : List Index := []
  rowEstimate : Option Int := none
  comment : Option String := none
deriving DecidableEq, Repr

/-- A relation/foreign-key edge (types.ts `Relation`). -/
structure Relation where
  name : String
  fromTable : String
  fromColumns : List String
  toTable : String
  toColumns : List String
  onUpdate : Option String := none
  onDelete : Option String := none
deriving DecidableEq, Repr

/-- An explicit layout position (types.ts `Position`). -/
structure Position where
  x : Int
  y : Int
  z : Int
deriving DecidableEq, Repr

/-- One narrative step of a scenario (types.ts `ScenarioStep`). -/
structure ScenarioStep where
  order : Int
  description : String
deriving DecidableEq, Repr

/-- A scenario / layer (types.ts `Scenario`). -/
structure Scenario where
  id : String
  name : String
  tableNames : List String
  steps : List ScenarioStep := []
  description : Option String := none
deriving DecidableEq, Repr

/-- The aggregate document (types.ts `SchemaGraph`).  `positions` is optional in
the JSON shape; an absent `scenarios` field behaves as `[]` everywhere in the
code (`next.scenarios ?? []`), so it is modelled as a plain list. -/
structure SchemaGraph where
  tables : List Table
  relations : List Relation
  positions : Option (List (String × Position)) := none
  scenarios : List Scenario := []
deriving DecidableEq, Repr

/-- First-occurrence deduplication: the iteration order of a JS `Set` built
from a list (`Array.from(new Set(xs))`) keeps the first occurrence of each
element, in order.  (Deduplicating the tail and then dropping later copies of
the head computes exactly that, structurally.) -/
def jsDedup {α : Type} [DecidableEq α] : List α → List α
  | [] => []
  | x :: xs => x :: (jsDedup xs).filter (fun y => y ≠ x)

/-- JS record update `obj[k] = v`: replace the value if the key is present
(keeping its position), otherwise append the new entry. -/
def setKey {α : Type} (ps : List (String × α)) (k : String) (v : α) : List (String × α) :=
  if ps.any (fun p => p.1 == k) then
    ps.map (fun p => if p.1 == k then (k, v) else p)
  else
    ps ++ [(k, v)]

/-- Little-endian decimal digits of a natural number, with explicit fuel so the
definition is structural (the fuel `n` itself always suffices). -/
def natDigitsAux : Nat → Nat → List Nat
  | 0, _ => []
  | _ + 1, 0 => []
  | fuel + 1, n + 1 => ((n + 1) % 10) :: natDigitsAux fuel ((n + 1) / 10)

/-- Decimal rendering of a natural number, as produced by a JS template
literal for a non-negative integer. -/
def natToString (n : Nat) : String :=
  if n = 0 then "0" else String.mk (((natDigitsAux n n).map Nat.digitChar).reverse)

/-- App.tsx `buildRenameMap`: detect a single rename between two table lists.
The JS `Record<string, string>` result is modelled as an association list that
is either empty or a single entry. -/
def buildRenameMap (previousTables nextTables : List Table) : List (String × String) :=
  let previousNames := jsDedup (previousTables.map (fun t => t.name))
  let nextNames := jsDedup (nextTables.map (fun t => t.name))
  let removed := previousNames.filter (fun n => !(nextNames.contains n))
  let added := nextNames.filter (fun n => !(previousNames.contains n))
  match removed, added with
  | [r], [a] => [(r, a)]
  | _, _ => []

/-- `renameMap[name] ?? name`. -/
def applyRename (renameMap : List (String × String)) (n : String) : String :=
  (renameMap.lookup n).getD n

/-- App.tsx `sanitizeScenarioTables`: map each scenario's table names through
the rename map, keep only names of existing tables, deduplicate. -/
def sanitizeScenarioTables (scenarios : List Scenario) (tables : List Table)
    (renameMap : List (String × String)) : List Scenario :=
  let tableSet := tables.map (fun t => t.name)
  scenarios.map (fun scenario =>
    { scenario with
      tableNames :=
        jsDedup ((scenario.tableNames.map (applyRename renameMap)).filter
          (fun n => tableSet.contains n)) })

/-- JS `String.prototype.trim()`: strip whitespace from both ends. -/
def jsTrim (s : String) : String :=
  String.mk (((s.data.dropWhile Char.isWhitespace).reverse.dropWhile Char.isWhitespace).reverse)

/-- The candidate name `${base}_${counter}`. -/
def suffixName (base : String) (counter : Nat) : String :=
  base ++ "_" ++ natToString counter

/-- The `while` loop of App.tsx `generateUniqueTableName`, with explicit fuel
(the loop terminates because table names are finitely many). -/
def findFreeSuffix (existing : List String) (base : String) : Nat → Nat → String
  | 0, counter => suffixName base counter
  | fuel + 1, counter =>
    let candidate := suffixName base counter
    if existing.contains candidate then findFreeSuffix existing base fuel (counter + 1)
    else candidate

/-- App.tsx `generateUniqueTableName`. -/
def generateUniqueTableName (base : String) (tables : List Table) : String :=
  let existing := tables.map (fun t => t.name)
  if existing.contains base then findFreeSuffix existing base (existing.length + 1) 1
  else base

/-- App.tsx `attachColumnForeignKeys`: hydrate a table's columns with the
foreign keys recorded as single-column relations originating from it. -/
def attachColumnForeignKeys (table : Table) (relations : List Relation) : Table :=
  let related := relations.filter (fun rel =>
    rel.fromTable == table.name && rel.fromColumns.length == 1 && rel.toColumns.length == 1)
  { table with
    columns := table.columns.map (fun column =>
      match related.find? (fun rel => rel.fromColumns.head? == some column.name) with
      | none => column
      | some m =>
        { column with
          foreignKey := some
            { table := m.toTable
              column := m.toColumns.headD ""
              onDelete := m.onDelete
              onUpdate := m.onUpdate } }) }

/-- App.tsx `buildRelationsFromColumns` (closure over `graph.relations`):
derive one relation per foreign-key-carrying column of a table. -/
def buildRelationsFromColumns (graph : SchemaGraph) (table : Table) : List Relation :=
  let existingRelations := graph.relations.filter (fun rel => rel.fromTable == table.name)
  table.columns.flatMap (fun column =>
    match column.foreignKey with
    | none => []
    | some fk =>
      let matched := existingRelations.find? (fun rel => rel.fromColumns.head? == some column.name)
      [{ name := (matched.map (fun m => m.name)).getD ("fk_" ++ table.name ++ "_" ++ column.name)
         fromTable := table.name
         fromColumns := [column.name]
         toTable := fk.table
         toColumns := [fk.column]
         onDelete := fk.onDelete.orElse (fun _ => matched.bind (fun m => m.onDelete))
         onUpdate := fk.onUpdate.orElse (fun _ => matched.bind (fun m => m.onUpdate)) }])

/-- The document-transforming part of App.tsx `handleGraphChange`: detect a
rename against the previous document, sanitize scenarios, install them. -/
def handleGraphChange (graph next : SchemaGraph) : SchemaGraph :=
  let renameMap := buildRenameMap graph.tables next.tables
  let sanitizedScenarios := sanitizeScenarioTables next.scenarios next.tables renameMap
  { next with scenarios := sanitizedScenarios }

/-- App.tsx `handleSaveDraft`: commit the draft table, regenerating its
outgoing relations from its columns, rewriting inbound relations and the
layout-position key across a rename, then running the graph-change pipeline. -/
def handleSaveDraft (graph : SchemaGraph) (draftTable : Table)
    (tableEditOrigin : Option String) (isCreatingTable : Bool) : SchemaGraph :=
  let updatedRelations := buildRelationsFromColumns graph draftTable
  let updatedTable : Table :=
    { draftTable with
      primaryKey := (draftTable.columns.filter (fun col => col.isPrimary)).map (fun col => col.name) }
  let originName := tableEditOrigin.getD draftTable.name
  let isNewTable := isCreatingTable || !(graph.tables.any (fun table => table.name == originName))
  let nextTables :=
    if isNewTable then graph.tables ++ [updatedTable]
    else graph.tables.map (fun table => if table.name == originName then updatedTable else table)
  let preservedRelations :=
    (graph.relations.filter (fun rel => !(rel.fromTable == originName))).map (fun rel =>
      if rel.toTable == originName then { rel with toTable := updatedTable.name } else rel)
  let nextPositions : Option (List (String × Position)) :=
    match graph.positions, tableEditOrigin with
    | some ps, some origin =>
      if origin ≠ "" ∧ origin ≠ updatedTable.name then
        some (ps.foldl (fun acc p =>
          if p.1 == origin then setKey acc updatedTable.name p.2 else setKey acc p.1 p.2) [])
      else some ps
    | some ps, none => some ps
    | none, _ => none
  handleGraphChange graph
    { graph with
      tables := nextTables
      relations := preservedRelations ++ updatedRelations
      positions := nextPositions }

/-- App.tsx `handleLayoutChange`: record a dragged position, preserving the
stored height and, under `lockZ`, the stored depth coordinate. -/
def handleLayoutChange (graph : SchemaGraph) (tableName : String) (position : Position)
    (lockZ : Bool) : SchemaGraph :=
  let nodes := graph.positions.getD []
  let previous := nodes.lookup tableName
  let y := (previous.map (fun p => p.y)).getD position.y
  let z :=
    if lockZ ∧ previous.isSome then (previous.map (fun p => p.z)).getD position.z
    else position.z
  let nodes' := setKey nodes tableName { x := position.x, y := y, z := z }
  handleGraphChange graph { graph with positions := some nodes' }

/-- App.tsx `handleSaveScenarioEdit`: renormalize the draft step list,
default empty descriptions, replace the active scenario by id, commit. -/
def handleSaveScenarioEdit (graph : SchemaGraph) (layers : List Scenario)
    (activeLayer : Scenario) (layerNameInput : String) (flowDrafts : List ScenarioStep)
    (layerDraftSelection : List String) : SchemaGraph :=
  let sanitizedName := if jsTrim layerNameInput = "" then activeLayer.name else jsTrim layerNameInput
  let flowDraftSteps := flowDrafts.mapIdx (fun index step => { step with order := (index : Int) + 1 })
  let normalizedSteps := flowDraftSteps.mapIdx (fun index step =>
    { order := (index : Int) + 1
      description :=
        if jsTrim step.description = "" then "단계 " ++ natToString (index + 1)
        else jsTrim step.description })
  let updatedLayer : Scenario :=
    { activeLayer with
      name := sanitizedName
      steps := normalizedSteps
      tableNames := layerDraftSelection }
  let nextScenarios := layers.map (fun layer =>
    if layer.id == activeLayer.id then updatedLayer else layer)
  handleGraphChange graph { graph with scenarios := nextScenarios }

/-- The outcome of running the host `JSON.parse` on submitted text: either a
syntax error, or a parsed object whose relevant fields may be absent. -/
structure RawGraph where
  tables : Option (List Table)
  relations : Option (List Relation)
  positions : Option (List (String × Position)) := none
  scenarios : Option (List Scenario) := none
deriving DecidableEq, Repr

/-- Parsed input to document submission. -/
inductive ParsedInput where
  | malformed (msg : String)
  | parsed (raw : RawGraph)
deriving DecidableEq, Repr

/-- The orchestrator state visible to document submission: the current
document and the inline error message of the input panel. -/
structure AppState where
  graph : SchemaGraph
  error : Option String := none
deriving DecidableEq, Repr

/-- SchemaInputPanel.tsx `handleSubmit` composed with the graph-change
pipeline: reject malformed JSON or a payload missing `tables`/`relations`,
leaving the document untouched; otherwise install the candidate. -/
def handleSubmit (st : AppState) (input : ParsedInput) : AppState :=
  match input with
  | .malformed msg => { st with error := some msg }
  | .parsed raw =>
    match raw.tables, raw.relations with
    | some ts, some rs =>
      { graph :=
          handleGraphChange st.graph
            { tables := ts
              relations := rs
              positions := raw.positions
              scenarios := raw.scenarios.getD [] }
        error := none }
    | _, _ => { st with error := some "Graph payload must include tables and relations" }

/-- Helper for `ceilSqrt`: linear search for the least `c ≥ counter` with
`n ≤ c * c`, with explicit fuel. -/
def ceilSqrtAux (n : Nat) : Nat → Nat → Nat
  | 0, counter => counter
  | fuel + 1, counter => if n ≤ counter * counter then counter else ceilSqrtAux n fuel (counter + 1)

/-- `Math.ceil(Math.sqrt n)` on a natural number: the least `c` with
`n ≤ c * c` (the fuel `n + 1` always suffices since `n ≤ n * n` fails only
past the window start for no `n`). -/
def ceilSqrt (n : Nat) : Nat := ceilSqrtAux n (n + 1) 0

/-- Scene3D.tsx `computeFallbackPositions`: deterministic fallback grid,
row-major by index, `ceil(sqrt(count))` columns, spacing 4, y = 0. -/
def computeFallbackPositions (tables : List Table) : List (String × Position) :=
  let columns := ceilSqrt tables.length
  let spacing : Int := 4
  tables.enum.foldl (fun grid p =>
    setKey grid p.2.name
      { x := spacing * ((p.1 : Int) % (columns : Int))
        y := 0
        z := spacing * ((p.1 : Int) / (columns : Int)) }) []

/-! ### Generic helper lemmas -/

theorem mem_jsDedup {α : Type} [DecidableEq α] {l : List α} {a : α} :
    a ∈ jsDedup l ↔ a ∈ l := by
  induction l with
  | nil => simp [jsDedup]
  | cons x xs ih =>
    simp only [jsDedup, List.mem_cons, List.mem_filter, ih, decide_eq_true_eq]
    constructor
    · rintro (rfl | ⟨h, _⟩)
      · exact Or.inl rfl
      · exact Or.inr h
    · rintro (rfl | h)
      · exact Or.inl rfl
      · by_cases hax : a = x
        · exact Or.inl hax
        · exact Or.inr ⟨h, hax⟩

theorem jsDedup_nodup {α : Type} [DecidableEq α] (l : List α) : (jsDedup l).Nodup := by
  induction l with
  | nil => simp [jsDedup]
  | cons x xs ih =>
    simp only [jsDedup, List.nodup_cons]
    refine ⟨fun hx => ?_, ih.filter _⟩
    simp only [List.mem_filter, decide_eq_true_eq] at hx
    exact hx.2 rfl

theorem jsDedup_eq_self {α : Type} [DecidableEq α] {l : List α} (h : l.Nodup) :
    jsDedup l = l := by
  induction l with
  | nil => simp [jsDedup]
  | cons x xs ih =>
    rcases List.nodup_cons.mp h with ⟨hx, hxs⟩
    have hfilter : xs.filter (fun y => decide (y ≠ x)) = xs := by
      apply List.filter_eq_self.mpr
      intro a ha
      simp only [decide_eq_true_eq]
      rintro rfl
      exact hx ha
    simp only [jsDedup, ih hxs, hfilter]

theorem lookup_map_replace {α : Type} (ps : List (String × α)) (k : String) (v : α)
    (h : ps.any (fun p => p.1 == k) = true) :
    (ps.map (fun p => if p.1 == k then (k, v) else p)).lookup k = some v := by
  induction ps with
  | nil => simp at h
  | cons p rest ih =>
    cases hpk : (p.1 == k) with
    | true =>
      rw [List.map_cons, if_pos hpk]
      simp [List.lookup]
    | false =>
      have h' : rest.any (fun p => p.1 == k) = true := by
        simpa [List.any_cons, hpk] using h
      have hk : (k == p.1) = false := by
        have hne : ¬ p.1 = k := by simpa using hpk
        simp only [beq_eq_false_iff_ne, ne_eq]
        exact fun e => hne e.symm
      rw [List.map_cons, if_neg (by simp [hpk])]
      simp only [List.lookup, hk]
      exact ih h'

theorem lookup_append_single {α : Type} (ps : List (String × α)) (k : String) (v : α)
    (h : ∀ p ∈ ps, (p.1 == k) = false) :
    (ps ++ [(k, v)]).lookup k = some v := by
  induction ps with
  | nil => simp [List.lookup]
  | cons p rest ih =>
    have hpk := h p (List.mem_cons_self _ _)
    have hk : (k == p.1) = false := by
      have hne : ¬ p.1 = k := by simpa using hpk
      simp only [beq_eq_false_iff_ne, ne_eq]
      exact fun e => hne e.symm
    simp only [List.cons_append, List.lookup, hk]
    exact ih fun q hq => h q (List.mem_cons_of_mem _ hq)

theorem lookup_setKey_self {α : Type} (ps : List (String × α)) (k : String) (v : α) :
    (setKey ps k v).lookup k = some v := by
  unfold setKey
  cases hany : ps.any (fun p => p.1 == k) with
  | true =>
    simp only [hany, if_true]
    exact lookup_map_replace ps k v hany
  | false =>
    simp only [hany, Bool.false_eq_true, if_false]
    apply lookup_append_single
    intro p hp
    have := List.any_eq_false.mp hany p hp
    simpa using this

theorem setKey_of_not_key {α : Type} (ps : List (String × α)) (k : String) (v : α)
    (h : ∀ p ∈ ps, p.1 ≠ k) : setKey ps k v = ps ++ [(k, v)] := by
  unfold setKey
  rw [if_neg]
  simp only [List.any_eq_true, not_exists, not_and]
  intro p hp
  simpa using h p hp

theorem zip_map_self {α β : Type} (f : α → β) (l : List α) :
    l.zip (l.map f) = l.map (fun a => (a, f a)) := by
  induction l with
  | nil => rfl
  | cons x xs ih =>
    simp only [List.map_cons, List.zip_cons_cons, List.cons.injEq, true_and]
    simpa [List.zip] using ih

theorem option_orElse_self {α : Type} (o : Option α) :
    o.orElse (fun _ => o) = o := by cases o <;> rfl

theorem natDigitsAux_eq_digits (fuel : Nat) :
    ∀ n : Nat, n ≤ fuel → natDigitsAux fuel n = Nat.digits 10 n := by
  induction fuel with
  | zero =>
    intro n hn
    interval_cases n
    simp [natDigitsAux]
  | succ fuel ih =>
    intro n hn
    match n with
    | 0 => simp [natDigitsAux]
    | m + 1 =>
      rw [natDigitsAux, Nat.digits_def' (by norm_num : (1 : Nat) < 10) (Nat.succ_pos m)]
      congr 1
      apply ih
      have hlt : (m + 1) / 10 < m + 1 := Nat.div_lt_self (Nat.succ_pos m) (by norm_num)
      omega

theorem digitChar_inj_lt {a b : Nat} (ha : a < 10) (hb : b < 10)
    (h : Nat.digitChar a = Nat.digitChar b) : a = b := by
  have : ∀ x < 10, ∀ y < 10, Nat.digitChar x = Nat.digitChar y → x = y := by decide
  exact this a ha b hb h

theorem map_digitChar_inj {l₁ l₂ : List Nat} (h₁ : ∀ d ∈ l₁, d < 10) (h₂ : ∀ d ∈ l₂, d < 10)
    (h : l₁.map Nat.digitChar = l₂.map Nat.digitChar) : l₁ = l₂ := by
  induction l₁ generalizing l₂ with
  | nil => cases l₂ <;> simp_all
  | cons x xs ih =>
    cases l₂ with
    | nil => simp at h
    | cons y ys =>
      simp only [List.map_cons, List.cons.injEq] at h
      have hx := h₁ x (List.mem_cons_self _ _)
      have hy := h₂ y (List.mem_cons_self _ _)
      have hxy := digitChar_inj_lt hx hy h.1
      have htail := ih (fun d hd => h₁ d (List.mem_cons_of_mem _ hd))
        (fun d hd => h₂ d (List.mem_cons_of_mem _ hd)) h.2
      rw [hxy, htail]

theorem natToString_injective : Function.Injective natToString := by
  intro a b h
  unfold natToString at h
  by_cases ha : a = 0 <;> by_cases hb : b = 0
  · omega
  · exfalso
    rw [if_pos ha, if_neg hb] at h
    have hdig : natDigitsAux b b = Nat.digits 10 b := natDigitsAux_eq_digits b b le_rfl
    rw [hdig] at h
    have hdata : (String.mk ['0']).data = (String.mk (((Nat.digits 10 b).map Nat.digitChar).reverse)).data := by
      rw [show ("0" : String) = String.mk ['0'] from rfl] at h
      rw [h]
    simp only [String.data] at hdata
    have hlen : ((Nat.digits 10 b).map Nat.digitChar).reverse.length = 1 := by
      rw [← hdata]; rfl
    simp only [List.length_reverse, List.length_map] at hlen
    rcases List.length_eq_one.mp hlen with ⟨d, hd⟩
    rw [hd] at hdata
    simp only [List.map_cons, List.map_nil, List.reverse_cons, List.reverse_nil,
      List.nil_append] at hdata
    have hdC : Nat.digitChar d = '0' := by
      have := hdata
      injection this.symm
    have hdlt : d < 10 := Nat.digits_lt_base (by norm_num) (hd ▸ List.mem_singleton_self d)
    have hd0 : d = 0 := digitChar_inj_lt hdlt (by norm_num) (by simpa using hdC)
    rw [hd0] at hd
    have : b = Nat.ofDigits 10 (Nat.digits 10 b) := (Nat.ofDigits_digits 10 b).symm
    rw [hd] at this
    simp [Nat.ofDigits] at this
    exact hb this
  · exfalso
    rw [if_neg ha, if_pos hb] at h
    have hdig : natDigitsAux a a = Nat.digits 10 a := natDigitsAux_eq_digits a a le_rfl
    rw [hdig] at h
    have hdata : (String.mk (((Nat.digits 10 a).map Nat.digitChar).reverse)).data = (String.mk ['0']).data := by
      rw [show ("0" : String) = String.mk ['0'] from rfl] at h
      rw [h]
    simp only [String.data] at hdata
    have hlen : ((Nat.digits 10 a).map Nat.digitChar).reverse.length = 1 := by
      rw [hdata]; rfl
    simp only [List.length_reverse, List.length_map] at hlen
    rcases List.length_eq_one.mp hlen with ⟨d, hd⟩
    rw [hd] at hdata
    simp only [List.map_cons, List.map_nil, List.reverse_cons, List.reverse_nil,
      List.nil_append] at hdata
    have hdC : Nat.digitChar d = '0' := by
      injection hdata
    have hdlt : d < 10 := Nat.digits_lt_base (by norm_num) (hd ▸ List.mem_singleton_self d)
    have hd0 : d = 0 := digitChar_inj_lt hdlt (by norm_num) (by simpa using hdC)
    rw [hd0] at hd
    have : a = Nat.ofDigits 10 (Nat.digits 10 a) := (Nat.ofDigits_digits 10 a).symm
    rw [hd] at this
    simp [Nat.ofDigits] at this
    exact ha this
  · rw [if_neg ha, if_neg hb, natDigitsAux_eq_digits a a le_rfl,
      natDigitsAux_eq_digits b b le_rfl] at h
    have hdata := congrArg String.data h
    simp only [String.data] at hdata
    have hrev := List.reverse_injective hdata
    have hmap := map_digitChar_inj
      (fun d hd => Nat.digits_lt_base (by norm_num) hd)
      (fun d hd => Nat.digits_lt_base (by norm_num) hd) hrev
    exact Nat.digits_inj_iff.mp hmap

theorem string_append_right_inj (s : String) {t₁ t₂ : String} (h : s ++ t₁ = s ++ t₂) :
    t₁ = t₂ := by
  have hdata := congrArg String.data h
  simp only [String.data_append] at hdata
  have := List.append_cancel_left hdata
  cases t₁; cases t₂
  exact congrArg String.mk this

theorem suffixName_injective (base : String) {j k : Nat}
    (h : suffixName base j = suffixName base k) : j = k := by
  unfold suffixName at h
  have h1 : (base ++ "_") ++ natToString j = (base ++ "_") ++ natToString k := by
    simpa [String.append_assoc] using h
  exact natToString_injective (string_append_right_inj _ h1)

theorem find?_eq_some_of_unique {α : Type} {l : List α} {p : α → Bool} {a : α}
    (ha : a ∈ l) (hpa : p a = true) (huniq : ∀ b ∈ l, p b = true → b = a) :
    l.find? p = some a := by
  induction l with
  | nil => cases ha
  | cons x xs ih =>
    by_cases hx : p x = true
    · have : x = a := huniq x (List.mem_cons_self _ _) hx
      subst this
      simp [List.find?, hx]
    · have hxf : p x = false := by simpa using hx
      simp only [List.find?, hxf]
      rcases List.mem_cons.mp ha with rfl | ha'
      · exact absurd hpa hx
      · exact ih ha' fun b hb hpb => huniq b (List.mem_cons_of_mem _ hb) hpb

theorem findFreeSuffix_spec (existing : List String) (base : String) :
    ∀ fuel counter : Nat,
      (∃ m, counter ≤ m ∧ m < counter + fuel ∧ suffixName base m ∉ existing) →
      ∃ k, counter ≤ k ∧ suffixName base k ∉ existing ∧
        (∀ j, counter ≤ j → j < k → suffixName base j ∈ existing) ∧
        findFreeSuffix existing base fuel counter = suffixName base k := by
  intro fuel
  induction fuel with
  | zero =>
    intro counter ⟨m, hm1, hm2, _⟩
    omega
  | succ fuel ih =>
    intro counter ⟨m, hm1, hm2, hmfree⟩
    by_cases hc : suffixName base counter ∈ existing
    · have hrec : ∃ k, counter + 1 ≤ k ∧ suffixName base k ∉ existing ∧
          (∀ j, counter + 1 ≤ j → j < k → suffixName base j ∈ existing) ∧
          findFreeSuffix existing base fuel (counter + 1) = suffixName base k := by
        apply ih
        refine ⟨m, ?_, by omega, hmfree⟩
        rcases Nat.lt_or_ge counter m with hlt | hge
        · omega
        · exfalso
          have : m = counter := by omega
          rw [this] at hmfree
          exact hmfree hc
      rcases hrec with ⟨k, hk1, hk2, hk3, hk4⟩
      refine ⟨k, by omega, hk2, ?_, ?_⟩
      · intro j hj1 hj2
        rcases Nat.eq_or_lt_of_le hj1 with rfl | hj
        · exact hc
        · exact hk3 j hj hj2
      · rw [findFreeSuffix, if_pos (by simpa [List.contains, List.elem_iff] using hc)]
        exact hk4
    · refine ⟨counter, le_rfl, hc, fun j hj1 hj2 => absurd (by omega : counter < counter) (lt_irrefl _), ?_⟩
      rw [findFreeSuffix, if_neg (by simpa [List.contains, List.elem_iff] using hc)]

theorem exists_free_suffix (existing : List String) (base : String) :
    ∃ m, 1 ≤ m ∧ m < 1 + (existing.length + 1) ∧ suffixName base m ∉ existing := by
  by_contra hall
  push_neg at hall
  have hsub : ∀ s ∈ (List.range' 1 (existing.length + 1)).map (suffixName base), s ∈ existing := by
    intro s hs
    rcases List.mem_map.mp hs with ⟨m, hm, rfl⟩
    rcases List.mem_range'_1.mp hm with ⟨hm1, hm2⟩
    exact hall m hm1 (by omega)
  have hnodup : ((List.range' 1 (existing.length + 1)).map (suffixName base)).Nodup := by
    apply List.Nodup.map_on
    · intro x _ y _ hxy
      exact suffixName_injective base hxy
    · exact List.nodup_range' _ _ 1 Nat.one_pos
  have hlen : ((List.range' 1 (existing.length + 1)).map (suffixName base)).length
      = existing.length + 1 := by
    simp [List.length_range']
  have hcard := List.toFinset_card_of_nodup hnodup
  have hsubset : ((List.range' 1 (existing.length + 1)).map (suffixName base)).toFinset
      ⊆ existing.toFinset := by
    intro s hs
    exact List.mem_toFinset.mpr (hsub s (List.mem_toFinset.mp hs))
  have h1 := Finset.card_le_card hsubset
  have h2 := existing.toFinset_card_le
  omega

/-- Claim C6: `generateUniqueTableName('new_table', tables)` returns the base
name when it is free, and otherwise `new_table_<k>` for the smallest positive
`k` whose candidate is unused (filling gaps, not max+1); the result never
collides with an existing table name.  The two concrete conjuncts are the
claim's gap examples. -/
theorem generateUniqueTableName_spec (tables : List Table) :
    generateUniqueTableName "new_table" tables ∉ tables.map (fun t => t.name) ∧
    ("new_table" ∉ tables.map (fun t => t.name) →
      generateUniqueTableName "new_table" tables = "new_table") ∧
    ("new_table" ∈ tables.map (fun t => t.name) →
      ∃ k, 1 ≤ k ∧
        generateUniqueTableName "new_table" tables = suffixName "new_table" k ∧
        suffixName "new_table" k ∉ tables.map (fun t => t.name) ∧
        (∀ j, 1 ≤ j → j < k → suffixName "new_table" j ∈ tables.map (fun t => t.name))) ∧
    generateUniqueTableName "new_table" [{name := "new_table"}, {name := "new_table_1"}]
      = "new_table_2" ∧
    generateUniqueTableName "new_table" [{name := "new_table"}] = "new_table_1" := by
  have key : "new_table" ∈ tables.map (fun t => t.name) →
      ∃ k, 1 ≤ k ∧
        generateUniqueTableName "new_table" tables = suffixName "new_table" k ∧
        suffixName "new_table" k ∉ tables.map (fun t => t.name) ∧
        (∀ j, 1 ≤ j → j < k → suffixName "new_table" j ∈ tables.map (fun t => t.name)) := by
    intro hmem
    have hfree := exists_free_suffix (tables.map (fun t => t.name)) "new_table"
    rcases findFreeSuffix_spec (tables.map (fun t => t.name)) "new_table"
      ((tables.map (fun t => t.name)).length + 1) 1 hfree with ⟨k, hk1, hk2, hk3, hk4⟩
    refine ⟨k, hk1, ?_, hk2, hk3⟩
    rw [generateUniqueTableName]
    rw [if_pos (by simpa [List.contains, List.elem_iff] using hmem)]
    exact hk4
  refine ⟨?_, ?_, key, by decide, by decide⟩
  · by_cases hmem : "new_table" ∈ tables.map (fun t => t.name)
    · rcases key hmem with ⟨k, _, heq, hfree, _⟩
      rw [heq]; exact hfree
    · rw [generateUniqueTableName, if_neg (by simpa [List.contains, List.elem_iff] using hmem)]
      exact hmem
  · intro hmem
    rw [generateUniqueTableName, if_neg (by simpa [List.contains, List.elem_iff] using hmem)]

/-- Witness for C6: with existing tables `{new_table, new_table_1}` the claim's
suffix-search conclusion holds at a concrete input. -/
theorem generateUniqueTableName_spec_witness :
    ∃ k, 1 ≤ k ∧
      generateUniqueTableName "new_table" [{name := "new_table"}, {name := "new_table_1"}]
        = suffixName "new_table" k ∧
      suffixName "new_table" k ∉
        ([{name := "new_table"}, {name := "new_table_1"}] : List Table).map (fun t => t.name) ∧
      (∀ j, 1 ≤ j → j < k → suffixName "new_table" j ∈
        ([{name := "new_table"}, {name := "new_table_1"}] : List Table).map (fun t => t.name)) :=
  (generateUniqueTableName_spec [{name := "new_table"}, {name := "new_table_1"}]).2.2.1
    (by decide)

theorem foldl_setKey_eq_map {α β : Type} (key : β → String) (val : β → α) :
    ∀ (l : List β) (acc : List (String × α)),
      (l.map key).Nodup → (∀ b ∈ l, ∀ q ∈ acc, q.1 ≠ key b) →
      l.foldl (fun acc b => setKey acc (key b) (val b)) acc
        = acc ++ l.map (fun b => (key b, val b)) := by
  intro l
  induction l with
  | nil => simp
  | cons b rest ih =>
    intro acc hnodup hacc
    rw [List.map_cons] at hnodup
    rcases List.nodup_cons.mp hnodup with ⟨hb, hrest⟩
    have hset : setKey acc (key b) (val b) = acc ++ [(key b, val b)] :=
      setKey_of_not_key acc (key b) (val b) fun q hq => hacc b (List.mem_cons_self _ _) q hq
    have hih := ih (acc ++ [(key b, val b)]) hrest ?_
    · simp only [List.foldl_cons, hset, hih, List.map_cons]
      simp
    · intro c hc q hq
      rcases List.mem_append.mp hq with hq | hq
      · exact hacc c (List.mem_cons_of_mem _ hc) q hq
      · have hq' : q = (key b, val b) := by simpa using hq
        rw [hq']
        intro hk
        apply hb
        have hmem' : key c ∈ List.map key rest := List.mem_map_of_mem key hc
        rw [← hk] at hmem'
        exact hmem'

theorem lookup_keyed_map_of_nodup {α β : Type} (key : β → String) (val : β → α) :
    ∀ (l : List β), (l.map key).Nodup → ∀ b ∈ l,
      (l.map (fun b => (key b, val b))).lookup (key b) = some (val b) := by
  intro l
  induction l with
  | nil => intro _ b hb; cases hb
  | cons c rest ih =>
    intro hnodup b hb
    rw [List.map_cons] at hnodup
    rcases List.nodup_cons.mp hnodup with ⟨hc, hrest⟩
    rcases List.mem_cons.mp hb with rfl | hb'
    · simp [List.lookup]
    · have hne : (key b == key c) = false := by
        simp only [beq_eq_false_iff_ne, ne_eq]
        intro he
        exact hc (he ▸ List.mem_map_of_mem key hb')
      simp only [List.map_cons, List.lookup, hne]
      exact ih hrest b hb'

theorem ceilSqrtAux_spec (n : Nat) :
    ∀ fuel counter : Nat,
      (∃ m, counter ≤ m ∧ m < counter + fuel ∧ n ≤ m * m) →
      ∃ k, counter ≤ k ∧ n ≤ k * k ∧ (∀ j, counter ≤ j → j < k → ¬ n ≤ j * j) ∧
        ceilSqrtAux n fuel counter = k := by
  intro fuel
  induction fuel with
  | zero =>
    intro counter ⟨m, hm1, hm2, _⟩
    omega
  | succ fuel ih =>
    intro counter ⟨m, hm1, hm2, hmsq⟩
    by_cases hc : n ≤ counter * counter
    · refine ⟨counter, le_rfl, hc, fun j hj1 hj2 => by omega, ?_⟩
      rw [ceilSqrtAux, if_pos hc]
    · have hrec := ih (counter + 1) ?_
      · rcases hrec with ⟨k, hk1, hk2, hk3, hk4⟩
        refine ⟨k, by omega, hk2, ?_, ?_⟩
        · intro j hj1 hj2
          rcases Nat.eq_or_lt_of_le hj1 with rfl | hj
          · exact hc
          · exact hk3 j hj hj2
        · rw [ceilSqrtAux, if_neg hc]
          exact hk4
      · refine ⟨m, ?_, by omega, hmsq⟩
        rcases Nat.lt_or_ge counter m with hlt | hge
        · omega
        · exfalso
          have : m = counter := by omega
          rw [this] at hmsq
          exact hc hmsq

theorem ceilSqrt_spec (n : Nat) :
    n ≤ ceilSqrt n * ceilSqrt n ∧ ∀ m : Nat, n ≤ m * m → ceilSqrt n ≤ m := by
  have hex : ∃ m, 0 ≤ m ∧ m < 0 + (n + 1) ∧ n ≤ m * m := by
    refine ⟨n, Nat.zero_le n, by omega, ?_⟩
    nlinarith
  rcases ceilSqrtAux_spec n (n + 1) 0 hex with ⟨k, _, hk2, hk3, hk4⟩
  rw [ceilSqrt, hk4]
  refine ⟨hk2, ?_⟩
  intro m hm
  by_contra hlt
  push_neg at hlt
  exact hk3 m (Nat.zero_le m) hlt hm

/-- Claim C9: the fallback grid assigns the table at index `i` the position
`(4 * (i mod c), 0, 4 * (i / c))` with `c = ceil(sqrt n)` columns (here
characterised as the least `c` with `n ≤ c * c`), and the function is a pure
function of the table list, hence deterministic across calls. -/
theorem computeFallbackPositions_spec (tables : List Table)
    (hnodup : (tables.map (fun t => t.name)).Nodup) (_hne : tables ≠ []) :
    (tables.length ≤ ceilSqrt tables.length * ceilSqrt tables.length ∧
      ∀ m : Nat, tables.length ≤ m * m → ceilSqrt tables.length ≤ m) ∧
    (∀ i (h : i < tables.length),
      (computeFallbackPositions tables).lookup (tables.get ⟨i, h⟩).name
        = some
          { x := 4 * ((i % ceilSqrt tables.length : Nat) : Int)
            y := 0
            z := 4 * ((i / ceilSqrt tables.length : Nat) : Int) }) ∧
    computeFallbackPositions tables = computeFallbackPositions tables := by
  refine ⟨ceilSqrt_spec tables.length, ?_, rfl⟩
  intro i h
  unfold computeFallbackPositions
  have hkeys : (tables.enum.map (fun p => p.2.name)).Nodup := by
    have : tables.enum.map (fun p => p.2.name) = tables.map (fun t => t.name) := by
      rw [show (fun p : Nat × Table => p.2.name) = (fun t : Table => t.name) ∘ Prod.snd from rfl]
      rw [← List.map_map, List.enum_map_snd]
    rw [this]
    exact hnodup
  rw [foldl_setKey_eq_map (fun p : Nat × Table => p.2.name)
    (fun p : Nat × Table =>
      ({ x := 4 * ((p.1 : Int) % ((ceilSqrt tables.length : Nat) : Int)), y := 0,
         z := 4 * ((p.1 : Int) / ((ceilSqrt tables.length : Nat) : Int)) } : Position))
    tables.enum [] hkeys (by simp)]
  have hmem : (i, tables.get ⟨i, h⟩) ∈ tables.enum := by
    have hgi : tables.enum.get ⟨i, by simpa using h⟩ = (i, tables.get ⟨i, h⟩) := by
      simp [List.getElem_enum]
    rw [← hgi]
    exact List.get_mem _ _ _
  have hlook := lookup_keyed_map_of_nodup (fun p : Nat × Table => p.2.name)
    (fun p : Nat × Table =>
      ({ x := 4 * ((p.1 : Int) % ((ceilSqrt tables.length : Nat) : Int)), y := 0,
         z := 4 * ((p.1 : Int) / ((ceilSqrt tables.length : Nat) : Int)) } : Position))
    tables.enum hkeys (i, tables.get ⟨i, h⟩) hmem
  simp only [List.nil_append]
  rw [hlook]
  congr 1

/-- Witness for C9: the two-table grid from the spec's layout example, with
`users` at index 0 and `orders` at index 1 placed at `(4, 0, 0)`. -/
theorem computeFallbackPositions_spec_witness :
    (computeFallbackPositions [{name := "users"}, {name := "orders"}]).lookup
      (([{name := "users"}, {name := "orders"}] : List Table).get ⟨1, by decide⟩).name
      = some
        { x := 4 * ((1 % ceilSqrt ([{name := "users"}, {name := "orders"}] : List Table).length : Nat) : Int)
          y := 0
          z := 4 * ((1 / ceilSqrt ([{name := "users"}, {name := "orders"}] : List Table).length : Nat) : Int) } :=
  (computeFallbackPositions_spec [{name := "users"}, {name := "orders"}]
    (by decide) (by decide)).2.1 1 (by decide)

/-- Claim C8: a dragged position is stored with the previously stored explicit
`y` when one exists, with the stored `z` kept when `lockZ` is set and an
explicit position existed, and with the dragged coordinates otherwise.  The
final conjuncts are the claim's worked example: a first drag to `(5, _, 3)`
with no prior explicit position persists `{x:5,y:0,z:3}` (the fallback having
been `(4,0,0)`) and a subsequent `lockZ` drag to `(7, _, 9)` persists
`{x:7,y:0,z:3}`. -/
theorem handleLayoutChange_spec (graph : SchemaGraph) (tableName : String)
    (position : Position) (lockZ : Bool) :
    (∀ prev : Position, (graph.positions.getD []).lookup tableName = some prev →
      ((handleLayoutChange graph tableName position lockZ).positions.getD []).lookup tableName
        = some { x := position.x, y := prev.y, z := if lockZ then prev.z else position.z }) ∧
    ((graph.positions.getD []).lookup tableName = none →
      ((handleLayoutChange graph tableName position lockZ).positions.getD []).lookup tableName
        = some { x := position.x, y := position.y, z := position.z }) ∧
    (computeFallbackPositions [{name := "users"}, {name := "orders"}]).lookup "orders"
      = some { x := 4, y := 0, z := 0 } ∧
    ((handleLayoutChange { tables := [{name := "orders"}], relations := [] } "orders"
        { x := 5, y := 0, z := 3 } false).positions.getD []).lookup "orders"
      = some { x := 5, y := 0, z := 3 } ∧
    ((handleLayoutChange
        (handleLayoutChange { tables := [{name := "orders"}], relations := [] } "orders"
          { x := 5, y := 0, z := 3 } false)
        "orders" { x := 7, y := 0, z := 9 } true).positions.getD []).lookup "orders"
      = some { x := 7, y := 0, z := 3 } := by
  have hpos : ∀ (g : SchemaGraph) (t : String) (pos : Position) (lz : Bool),
      (handleLayoutChange g t pos lz).positions
        = some (setKey (g.positions.getD []) t
            { x := pos.x
              y := (((g.positions.getD []).lookup t).map (fun p => p.y)).getD pos.y
              z :=
                if lz ∧ ((g.positions.getD []).lookup t).isSome then
                  (((g.positions.getD []).lookup t).map (fun p => p.z)).getD pos.z
                else pos.z }) := fun _ _ _ _ => rfl
  refine ⟨?_, ?_, by decide, by decide, by decide⟩
  · intro prev hprev
    rw [hpos, Option.getD_some, lookup_setKey_self]
    simp [hprev]
  · intro hprev
    rw [hpos, Option.getD_some, lookup_setKey_self]
    simp [hprev]

/-- Witness for C8: the general clauses applied to a concrete state with an
existing explicit position, under a `lockZ` drag. -/
theorem handleLayoutChange_spec_witness :
    ((handleLayoutChange
        { tables := [{name := "orders"}], relations := [],
          positions := some [("orders", { x := 1, y := 2, z := 3 })] }
        "orders" { x := 7, y := 0, z := 9 } true).positions.getD []).lookup "orders"
      = some { x := 7, y := 2, z := 3 } :=
  (handleLayoutChange_spec
    { tables := [{name := "orders"}], relations := [],
      positions := some [("orders", { x := 1, y := 2, z := 3 })] }
    "orders" { x := 7, y := 0, z := 9 } true).1 { x := 1, y := 2, z := 3 } (by decide)

/-- Claim C5: a submission that is not valid JSON or whose parsed value lacks
`tables` or `relations` is rejected with a descriptive error and leaves the
current document completely unchanged; when the structural check passes, the
candidate becomes the new current document (its tables, relations and
positions installed verbatim, its scenarios run through the standard
sanitization pipeline) and the error is cleared. -/
theorem handleSubmit_spec (st : AppState) (input : ParsedInput) :
    (∀ msg, input = ParsedInput.malformed msg →
      (handleSubmit st input).graph = st.graph ∧ (handleSubmit st input).error = some msg) ∧
    (∀ raw, input = ParsedInput.parsed raw → (raw.tables = none ∨ raw.relations = none) →
      (handleSubmit st input).graph = st.graph ∧
      (handleSubmit st input).error = some "Graph payload must include tables and relations") ∧
    (∀ raw ts rs, input = ParsedInput.parsed raw →
      raw.tables = some ts → raw.relations = some rs →
      (handleSubmit st input).error = none ∧
      (handleSubmit st input).graph.tables = ts ∧
      (handleSubmit st input).graph.relations = rs ∧
      (handleSubmit st input).graph.positions = raw.positions) := by
  refine ⟨?_, ?_, ?_⟩
  · rintro msg rfl
    exact ⟨rfl, rfl⟩
  · rintro raw rfl hmiss
    rcases hmiss with h | h <;>
      rcases hts : raw.tables with _ | ts <;> rcases hrs : raw.relations with _ | rs <;>
        simp_all [handleSubmit]
  · rintro raw ts rs rfl hts hrs
    simp [handleSubmit, hts, hrs, handleGraphChange]

/-- Witness for C5: rejecting a payload that lacks `relations` leaves a
concrete document unchanged. -/
theorem handleSubmit_spec_witness :
    (handleSubmit { graph := { tables := [{name := "A"}], relations := [] } }
        (ParsedInput.parsed { tables := some [], relations := none })).graph
      = { tables := [{name := "A"}], relations := [] } ∧
    (handleSubmit { graph := { tables := [{name := "A"}], relations := [] } }
        (ParsedInput.parsed { tables := some [], relations := none })).error
      = some "Graph payload must include tables and relations" :=
  (handleSubmit_spec { graph := { tables := [{name := "A"}], relations := [] } }
      (ParsedInput.parsed { tables := some [], relations := none })).2.1
    { tables := some [], relations := none } rfl (Or.inr rfl)

/-- Claim C4: `sanitizeScenarioTables` keeps every scenario (same count, same
order, other fields untouched) and replaces each `tableNames` by the original
names mapped through the rename map, restricted to names of existing tables,
with duplicates removed; a scenario whose list becomes empty is kept. -/
theorem sanitizeScenarioTables_spec (scenarios : List Scenario) (tables : List Table)
    (renameMap : List (String × String)) :
    (sanitizeScenarioTables scenarios tables renameMap).length = scenarios.length ∧
    ∀ p ∈ scenarios.zip (sanitizeScenarioTables scenarios tables renameMap),
      p.2.id = p.1.id ∧ p.2.name = p.1.name ∧ p.2.steps = p.1.steps ∧
      p.2.description = p.1.description ∧
      p.2.tableNames.Nodup ∧
      (∀ n, n ∈ p.2.tableNames ↔
        (∃ m ∈ p.1.tableNames, applyRename renameMap m = n) ∧
        n ∈ tables.map (fun t => t.name)) := by
  constructor
  · simp [sanitizeScenarioTables]
  · intro p hp
    rw [show sanitizeScenarioTables scenarios tables renameMap
        = scenarios.map (fun scenario =>
            { scenario with
              tableNames :=
                jsDedup ((scenario.tableNames.map (applyRename renameMap)).filter
                  (fun n => (tables.map (fun t => t.name)).contains n)) }) from rfl,
      zip_map_self] at hp
    rcases List.mem_map.mp hp with ⟨s, _, rfl⟩
    refine ⟨rfl, rfl, rfl, rfl, jsDedup_nodup _, ?_⟩
    intro n
    rw [mem_jsDedup, List.mem_filter]
    simp only [List.mem_map, List.contains, List.elem_iff]

/-- Witness for C4: a scenario listing a duplicated surviving name and a
vanished name is kept with the survivor, deduplicated. -/
theorem sanitizeScenarioTables_spec_witness :
    ({id := "L1", name := "s", tableNames := ["A"]} : Scenario).tableNames.Nodup ∧
    (∀ n, n ∈ ({id := "L1", name := "s", tableNames := ["A"]} : Scenario).tableNames ↔
      (∃ m ∈ ({id := "L1", name := "s", tableNames := ["A", "B", "A"]} : Scenario).tableNames,
        applyRename [] m = n) ∧
      n ∈ ([{name := "A"}] : List Table).map (fun t => t.name)) := by
  have h := (sanitizeScenarioTables_spec
    [{id := "L1", name := "s", tableNames := ["A", "B", "A"]}] [{name := "A"}] []).2
    ({id := "L1", name := "s", tableNames := ["A", "B", "A"]},
     {id := "L1", name := "s", tableNames := ["A"]}) (by decide)
  exact ⟨h.2.2.2.2.1, h.2.2.2.2.2⟩

theorem removed_toFinset (l₁ l₂ : List String) :
    ((jsDedup l₁).filter (fun n => !((jsDedup l₂).contains n))).toFinset
      = l₁.toFinset \ l₂.toFinset := by
  ext n
  simp only [List.mem_toFinset, List.mem_filter, mem_jsDedup, Finset.mem_sdiff,
    Bool.not_eq_true', List.contains, List.elem_eq_mem, decide_eq_false_iff_not, mem_jsDedup]

theorem nodup_eq_singleton_iff {l : List String} (h : l.Nodup) (r : String) :
    l = [r] ↔ l.toFinset = {r} := by
  constructor
  · rintro rfl
    simp
  · intro hf
    cases l with
    | nil =>
      exfalso
      have : r ∈ (∅ : Finset String) := by
        rw [show (∅ : Finset String) = ([] : List String).toFinset from rfl, hf]
        exact Finset.mem_singleton_self r
      simp at this
    | cons x xs =>
      have hx : x = r := by
        have : x ∈ ({r} : Finset String) := by
          rw [← hf]
          simp
        simpa using this
      have hxs : xs = [] := by
        cases xs with
        | nil => rfl
        | cons y ys =>
          exfalso
          have hy : y = r := by
            have : y ∈ ({r} : Finset String) := by
              rw [← hf]
              simp
            simpa using this
          rcases List.nodup_cons.mp h with ⟨hnx, _⟩
          exact hnx (by rw [hx, ← hy]; exact List.mem_cons_self _ _)
      rw [hx, hxs]

theorem buildRenameMap_eq_single_iff (prev next : List Table) (r a : String) :
    buildRenameMap prev next = [(r, a)] ↔
      ((jsDedup (prev.map fun t => t.name)).filter
          (fun n => !((jsDedup (next.map fun t => t.name)).contains n)) = [r] ∧
        (jsDedup (next.map fun t => t.name)).filter
          (fun n => !((jsDedup (prev.map fun t => t.name)).contains n)) = [a]) := by
  unfold buildRenameMap
  dsimp only
  split
  next r' a' heqR heqA =>
    rw [heqR, heqA]
    constructor
    · intro h
      have h1 : r' = r ∧ a' = a := by
        have := List.cons.injEq (r', a') [] (r, a) [] ▸ h
        simpa using h
      rw [h1.1, h1.2]
      exact ⟨rfl, rfl⟩
    · rintro ⟨h1, h2⟩
      have hr : r' = r := by simpa using h1
      have ha : a' = a := by simpa using h2
      rw [hr, ha]
  next hno =>
    constructor
    · intro h
      simp at h
    · rintro ⟨h1, h2⟩
      exact absurd (by simpa [List.contains, List.elem_eq_mem] using h2)
        (hno r a (by simpa [List.contains, List.elem_eq_mem] using h1))

/-- Claim C3: `buildRenameMap` returns a single-entry mapping exactly when the
set difference previous∖next and next∖previous each contain exactly one name;
in every other case it returns no rename.  The concrete conjuncts show the
ambiguous edit (remove `A`,`B`; add `C`,`D`) yields no rename, so a scenario
referencing `A` and `B` simply drops them rather than being remapped. -/
theorem buildRenameMap_spec :
    (∀ (prev next : List Table) (r a : String),
      buildRenameMap prev next = [(r, a)] ↔
        ((prev.map fun t => t.name).toFinset \ (next.map fun t => t.name).toFinset = {r} ∧
          (next.map fun t => t.name).toFinset \ (prev.map fun t => t.name).toFinset = {a})) ∧
    (∀ prev next : List Table,
      buildRenameMap prev next = [] ∨ ∃ r a, buildRenameMap prev next = [(r, a)]) ∧
    buildRenameMap [{name := "A"}, {name := "B"}] [{name := "C"}, {name := "D"}] = [] ∧
    sanitizeScenarioTables [{id := "L1", name := "s", tableNames := ["A", "B", "C"]}]
        [{name := "C"}, {name := "D"}]
        (buildRenameMap [{name := "A"}, {name := "B"}] [{name := "C"}, {name := "D"}])
      = [{id := "L1", name := "s", tableNames := ["C"]}] := by
  refine ⟨?_, ?_, by decide, by decide⟩
  · intro prev next r a
    rw [buildRenameMap_eq_single_iff]
    have hremoved := removed_toFinset (prev.map fun t => t.name) (next.map fun t => t.name)
    have hadded := removed_toFinset (next.map fun t => t.name) (prev.map fun t => t.name)
    rw [nodup_eq_singleton_iff ((jsDedup_nodup _).filter _) r,
      nodup_eq_singleton_iff ((jsDedup_nodup _).filter _) a, hremoved, hadded]
  · intro prev next
    unfold buildRenameMap
    dsimp only
    split
    · exact Or.inr ⟨_, _, rfl⟩
    · exact Or.inl rfl

/-- Witness for C3: the single-rename case `B → B2` detected through the
set-difference characterisation. -/
theorem buildRenameMap_spec_witness :
    buildRenameMap [{name := "A"}, {name := "B"}] [{name := "A"}, {name := "B2"}]
      = [("B", "B2")] :=
  (buildRenameMap_spec.1 [{name := "A"}, {name := "B"}] [{name := "A"}, {name := "B2"}]
    "B" "B2").mpr (by decide)

/-- Counterexample to claim C7 as stated: saving a scenario edit with a single
empty-description draft step yields the placeholder `단계 1`, not `Step 1`. -/
theorem handleSaveScenarioEdit_counterexample :
    ((handleSaveScenarioEdit { tables := [], relations := [] }
        [{id := "L1", name := "s", tableNames := ["A"]}]
        {id := "L1", name := "s", tableNames := ["A"]} "" [{order := 5, description := ""}]
        []).scenarios.map (fun s => s.steps))
      = [[{ order := 1, description := "단계 1" }]] ∧
    ¬ ((handleSaveScenarioEdit { tables := [], relations := [] }
        [{id := "L1", name := "s", tableNames := ["A"]}]
        {id := "L1", name := "s", tableNames := ["A"]} "" [{order := 5, description := ""}]
        []).scenarios.map (fun s => s.steps))
      = [[{ order := 1, description := "Step 1" }]] := by
  constructor
  · decide
  · decide

/-- Claim C7 (amended: the placeholder literal is `단계 <n>` rather than
`Step <n>`): saving a scenario edit renormalizes the draft step list to orders
exactly `1..n`, contiguous and 1-based in draft order regardless of the
drafts' original `order` values, replaces an empty (after trimming) step
description by the placeholder, and replaces the scenario in place in the
scenario collection, matched by its id, leaving every other scenario's steps
unchanged. -/
theorem handleSaveScenarioEdit_spec (graph : SchemaGraph) (layers : List Scenario)
    (activeLayer : Scenario) (layerNameInput : String) (flowDrafts : List ScenarioStep)
    (layerDraftSelection : List String) :
    (handleSaveScenarioEdit graph layers activeLayer layerNameInput flowDrafts
        layerDraftSelection).scenarios.length = layers.length ∧
    ∀ p ∈ layers.zip (handleSaveScenarioEdit graph layers activeLayer layerNameInput flowDrafts
        layerDraftSelection).scenarios,
      p.2.id = p.1.id ∧
      (p.1.id = activeLayer.id →
        p.2.steps = flowDrafts.enum.map (fun q =>
          { order := (q.1 : Int) + 1
            description :=
              if jsTrim q.2.description = "" then "단계 " ++ natToString (q.1 + 1)
              else jsTrim q.2.description })) ∧
      (p.1.id ≠ activeLayer.id → p.2.steps = p.1.steps) := by
  have hsteps :
      (flowDrafts.mapIdx (fun index step => ({ step with order := (index : Int) + 1 } : ScenarioStep))).mapIdx
          (fun index step =>
            ({ order := (index : Int) + 1
               description :=
                 if jsTrim step.description = "" then "단계 " ++ natToString (index + 1)
                 else jsTrim step.description } : ScenarioStep))
        = flowDrafts.enum.map (fun q =>
            ({ order := (q.1 : Int) + 1
               description :=
                 if jsTrim q.2.description = "" then "단계 " ++ natToString (q.1 + 1)
                 else jsTrim q.2.description } : ScenarioStep)) := by
    apply List.ext_get
    · simp [List.length_mapIdx, List.enum_length]
    · intro i h1 h2
      have hi : i < flowDrafts.length := by
        simpa [List.length_mapIdx] using h1
      have hi' : i < (flowDrafts.mapIdx
          (fun index step => ({ step with order := (index : Int) + 1 } : ScenarioStep))).length := by
        simpa [List.length_mapIdx] using hi
      rw [List.get_mapIdx _ _ i hi', List.get_mapIdx _ _ i hi]
      have henum : i < flowDrafts.enum.length := by simpa [List.enum_length] using hi
      rw [List.get_map]
      congr 1
      · simp [List.getElem_enum]
      · simp [List.getElem_enum]
  have hres : (handleSaveScenarioEdit graph layers activeLayer layerNameInput flowDrafts
        layerDraftSelection).scenarios
      = (layers.map (fun layer =>
          if layer.id == activeLayer.id then
            { activeLayer with
              name :=
                if jsTrim layerNameInput = "" then activeLayer.name else jsTrim layerNameInput
              steps := flowDrafts.enum.map (fun q =>
                ({ order := (q.1 : Int) + 1
                   description :=
                     if jsTrim q.2.description = "" then "단계 " ++ natToString (q.1 + 1)
                     else jsTrim q.2.description } : ScenarioStep))
              tableNames := layerDraftSelection }
          else layer)).map (fun scenario =>
          { scenario with
            tableNames :=
              jsDedup ((scenario.tableNames.map
                (applyRename (buildRenameMap graph.tables graph.tables))).filter
                  (fun n => (graph.tables.map (fun t => t.name)).contains n)) }) := by
    rw [show (handleSaveScenarioEdit graph layers activeLayer layerNameInput flowDrafts
        layerDraftSelection).scenarios
      = sanitizeScenarioTables
          (layers.map (fun layer =>
            if layer.id == activeLayer.id then
              { activeLayer with
                name :=
                  if jsTrim layerNameInput = "" then activeLayer.name else jsTrim layerNameInput
                steps := (flowDrafts.mapIdx
                    (fun index step => ({ step with order := (index : Int) + 1 } : ScenarioStep))).mapIdx
                  (fun index step =>
                    ({ order := (index : Int) + 1
                       description :=
                         if jsTrim step.description = "" then "단계 " ++ natToString (index + 1)
                         else jsTrim step.description } : ScenarioStep))
                tableNames := layerDraftSelection }
            else layer))
          graph.tables (buildRenameMap graph.tables graph.tables) from rfl]
    rw [hsteps]
    rfl
  rw [hres, List.map_map]
  constructor
  · simp
  · intro p hp
    rw [zip_map_self] at hp
    rcases List.mem_map.mp hp with ⟨layer, _, rfl⟩
    simp only [Function.comp]
    cases hid : (layer.id == activeLayer.id) with
    | true =>
      have hideq : layer.id = activeLayer.id := by simpa using hid
      rw [if_pos (by simp [hid])]
      exact ⟨by simp [hideq], fun _ => rfl, fun hne => absurd hideq hne⟩
    | false =>
      have hidne : ¬ layer.id = activeLayer.id := by simpa using hid
      rw [if_neg (by simp [hid])]
      exact ⟨rfl, fun he => absurd he hidne, fun _ => rfl⟩

/-- Witness for C7: the amended theorem applied to the spec's renormalization
example, draft orders `[5, 9]` with descriptions `x`, `y`. -/
theorem handleSaveScenarioEdit_spec_witness :
    (({id := "L1", name := "s", tableNames := ["A"]} : Scenario),
        ({id := "L1", name := "s", tableNames := [], steps :=
          [{order := 1, description := "x"}, {order := 2, description := "y"}]} : Scenario)).2.steps
      = ([{order := 5, description := "x"}, {order := 9, description := "y"}] :
          List ScenarioStep).enum.map (fun q =>
            ({ order := (q.1 : Int) + 1
               description :=
                 if jsTrim q.2.description = "" then "단계 " ++ natToString (q.1 + 1)
                 else jsTrim q.2.description } : ScenarioStep)) := by
  have h := (handleSaveScenarioEdit_spec { tables := [], relations := [] }
    [{id := "L1", name := "s", tableNames := ["A"]}]
    {id := "L1", name := "s", tableNames := ["A"]} "s"
    [{order := 5, description := "x"}, {order := 9, description := "y"}] []).2
    (({id := "L1", name := "s", tableNames := ["A"]} : Scenario),
      ({id := "L1", name := "s", tableNames := [], steps :=
        [{order := 1, description := "x"}, {order := 2, description := "y"}]} : Scenario))
    (by decide)
  exact h.2.1 rfl

theorem buildRelations_fromTable (graph : SchemaGraph) (table : Table) :
    ∀ r ∈ buildRelationsFromColumns graph table, r.fromTable = table.name := by
  intro r hr
  unfold buildRelationsFromColumns at hr
  rw [List.mem_flatMap] at hr
  rcases hr with ⟨c, _, hrc⟩
  cases hfk : c.foreignKey with
  | none => rw [hfk] at hrc; simp at hrc
  | some fk =>
    rw [hfk] at hrc
    have : r = _ := List.mem_singleton.mp hrc
    rw [this]

theorem flatMap_fk_forall₂ (tname : String) (existing : List Relation) :
    ∀ cols : List Column,
      List.Forall₂ (fun (c : Column) (r : Relation) =>
          ∃ fk, c.foreignKey = some fk ∧
            r = { name := (((existing.find?
                    (fun rel => rel.fromColumns.head? == some c.name)).map
                      (fun m => m.name)).getD ("fk_" ++ tname ++ "_" ++ c.name))
                  fromTable := tname
                  fromColumns := [c.name]
                  toTable := fk.table
                  toColumns := [fk.column]
                  onDelete := fk.onDelete.orElse (fun _ =>
                    ((existing.find? (fun rel => rel.fromColumns.head? == some c.name)).bind
                      (fun m => m.onDelete)))
                  onUpdate := fk.onUpdate.orElse (fun _ =>
                    ((existing.find? (fun rel => rel.fromColumns.head? == some c.name)).bind
                      (fun m => m.onUpdate))) })
        (cols.filter (fun c => c.foreignKey.isSome))
        (cols.flatMap (fun column =>
          match column.foreignKey with
          | none => []
          | some fk =>
            let matched := existing.find? (fun rel => rel.fromColumns.head? == some column.name)
            [{ name := (matched.map (fun m => m.name)).getD ("fk_" ++ tname ++ "_" ++ column.name)
               fromTable := tname
               fromColumns := [column.name]
               toTable := fk.table
               toColumns := [fk.column]
               onDelete := fk.onDelete.orElse (fun _ => matched.bind (fun m => m.onDelete))
               onUpdate := fk.onUpdate.orElse (fun _ => matched.bind (fun m => m.onUpdate)) }])) := by
  intro cols
  induction cols with
  | nil => simp [List.Forall₂.nil]
  | cons c cs ih =>
    cases hfk : c.foreignKey with
    | none =>
      rw [List.flatMap_cons, List.filter_cons]
      simp only [hfk, Option.isSome_none, Bool.false_eq_true, if_false, List.nil_append]
      exact ih
    | some fk =>
      rw [List.flatMap_cons, List.filter_cons]
      simp only [hfk, Option.isSome_some, if_true, List.singleton_append]
      exact List.Forall₂.cons ⟨fk, hfk, rfl⟩ ih

/-- Counterexample to claim C1 as stated: renaming table `A` to `B` while a
stale relation with `fromTable = B` exists leaves that relation in the
document, so the relations with `fromTable = B` (one) are not in 1:1
correspondence with the saved table's foreign-key columns (none). -/
theorem handleSaveDraft_counterexample :
    ¬ (((handleSaveDraft
          { tables := [{name := "A"}]
            relations := [{name := "r0", fromTable := "B", fromColumns := ["x"],
                           toTable := "A", toColumns := ["id"]}] }
          {name := "B"} (some "A") false).relations.filter
        (fun rel => rel.fromTable == "B")).length
      = (({name := "B"} : Table).columns.filter (fun c => c.foreignKey.isSome)).length) := by
  decide

/-- Claim C1 (amended with the precondition that the save is not a rename onto
a name already occurring as some existing relation's `fromTable`): after
`handleSaveDraft`, the relations of the resulting document whose `fromTable`
equals the draft's final name are in 1:1 correspondence with the draft's
foreign-key-carrying columns: the two lists have equal length and, pairwise in
order, each such column `c` yields exactly one relation with
`fromColumns = [c.name]`, `toTable`/`toColumns` mirroring `c.foreignKey`, and
`onUpdate`/`onDelete` taken from `c.foreignKey`, falling back to the
previously matching relation's value when unset; columns without a
`foreignKey` contribute no relation. -/
theorem handleSaveDraft_relations_spec (graph : SchemaGraph) (draftTable : Table)
    (tableEditOrigin : Option String) (isCreatingTable : Bool)
    (hclean : tableEditOrigin.getD draftTable.name = draftTable.name ∨
      ∀ rel ∈ graph.relations, rel.fromTable ≠ draftTable.name) :
    ((handleSaveDraft graph draftTable tableEditOrigin isCreatingTable).relations.filter
        (fun rel => rel.fromTable == draftTable.name)).length
      = (draftTable.columns.filter (fun c => c.foreignKey.isSome)).length ∧
    ∀ p ∈ (draftTable.columns.filter (fun c => c.foreignKey.isSome)).zip
        ((handleSaveDraft graph draftTable tableEditOrigin isCreatingTable).relations.filter
          (fun rel => rel.fromTable == draftTable.name)),
      ∃ fk, p.1.foreignKey = some fk ∧
        p.2.fromTable = draftTable.name ∧
        p.2.fromColumns = [p.1.name] ∧
        p.2.toTable = fk.table ∧
        p.2.toColumns = [fk.column] ∧
        p.2.onUpdate = fk.onUpdate.orElse (fun _ =>
          (((graph.relations.filter (fun rel => rel.fromTable == draftTable.name)).find?
            (fun rel => rel.fromColumns.head? == some p.1.name)).bind (fun m => m.onUpdate))) ∧
        p.2.onDelete = fk.onDelete.orElse (fun _ =>
          (((graph.relations.filter (fun rel => rel.fromTable == draftTable.name)).find?
            (fun rel => rel.fromColumns.head? == some p.1.name)).bind (fun m => m.onDelete))) := by
  have hrel : (handleSaveDraft graph draftTable tableEditOrigin isCreatingTable).relations
      = (graph.relations.filter
          (fun rel => !(rel.fromTable == tableEditOrigin.getD draftTable.name))).map (fun rel =>
            if rel.toTable == tableEditOrigin.getD draftTable.name then
              { rel with toTable := draftTable.name }
            else rel)
        ++ buildRelationsFromColumns graph draftTable := rfl
  have hpres : ((graph.relations.filter
      (fun rel => !(rel.fromTable == tableEditOrigin.getD draftTable.name))).map (fun rel =>
        if rel.toTable == tableEditOrigin.getD draftTable.name then
          { rel with toTable := draftTable.name }
        else rel)).filter (fun rel => rel.fromTable == draftTable.name) = [] := by
    rw [List.filter_eq_nil_iff]
    intro r hr
    rcases List.mem_map.mp hr with ⟨rel, hmem, rfl⟩
    rcases List.mem_filter.mp hmem with ⟨hrelmem, hpred⟩
    have hfromne : rel.fromTable ≠ tableEditOrigin.getD draftTable.name := by
      simpa using hpred
    have hfrom : (if rel.toTable == tableEditOrigin.getD draftTable.name then
        { rel with toTable := draftTable.name } else rel).fromTable = rel.fromTable := by
      split <;> rfl
    rw [hfrom]
    rcases hclean with h | h
    · simpa using fun he => hfromne (by rw [he, h])
    · simpa using h rel hrelmem
  have hder : (buildRelationsFromColumns graph draftTable).filter
      (fun rel => rel.fromTable == draftTable.name) = buildRelationsFromColumns graph draftTable := by
    rw [List.filter_eq_self]
    intro r hr
    simpa using buildRelations_fromTable graph draftTable r hr
  have hout : (handleSaveDraft graph draftTable tableEditOrigin isCreatingTable).relations.filter
      (fun rel => rel.fromTable == draftTable.name) = buildRelationsFromColumns graph draftTable := by
    rw [hrel, List.filter_append, hpres, hder, List.nil_append]
  have hforall := flatMap_fk_forall₂ draftTable.name
    (graph.relations.filter (fun rel => rel.fromTable == draftTable.name)) draftTable.columns
  have hforall' := List.forall₂_iff_zip.mp hforall
  constructor
  · rw [hout]
    exact hforall'.1.symm
  · intro p hp
    rw [hout] at hp
    have hprop := hforall'.2 hp
    rcases hprop with ⟨fk, hfk, hr⟩
    exact ⟨fk, hfk, by rw [hr], by rw [hr], by rw [hr], by rw [hr], by rw [hr], by rw [hr]⟩

/-- Concrete document for the C1 witness: one table `T` with an existing
relation `fk0` out of column `a`. -/
def c1Graph : SchemaGraph :=
  { tables := [{name := "T"}]
    relations := [{name := "fk0", fromTable := "T", fromColumns := ["a"], toTable := "U",
                   toColumns := ["id"], onUpdate := some "CASCADE"}] }

/-- Concrete draft for the C1 witness: `T` edited so column `a` points at
`U2.uid` with an explicit `onDelete` and no `onUpdate`. -/
def c1Draft : Table :=
  { name := "T"
    columns := [{name := "a", type := "int",
                 foreignKey := some {table := "U2", column := "uid",
                                     onDelete := some "SET NULL"}}] }

/-- The foreign-key column of the C1 witness draft paired with the relation the
save derives for it. -/
def c1Pair : Column × Relation :=
  ({name := "a", type := "int",
    foreignKey := some {table := "U2", column := "uid", onDelete := some "SET NULL"}},
   {name := "fk0", fromTable := "T", fromColumns := ["a"], toTable := "U2",
    toColumns := ["uid"], onUpdate := some "CASCADE", onDelete := some "SET NULL"})

/-- Witness for C1: an in-place save (origin equals the final name) of a table
with one foreign-key column; the existing matching relation donates its name
and its `onUpdate` as the fallback. -/
theorem handleSaveDraft_relations_spec_witness :
    ∃ fk, c1Pair.1.foreignKey = some fk ∧
      c1Pair.2.fromTable = c1Draft.name ∧
      c1Pair.2.fromColumns = [c1Pair.1.name] ∧
      c1Pair.2.toTable = fk.table ∧
      c1Pair.2.toColumns = [fk.column] ∧
      c1Pair.2.onUpdate = fk.onUpdate.orElse (fun _ =>
        (((c1Graph.relations.filter (fun rel => rel.fromTable == c1Draft.name)).find?
          (fun rel => rel.fromColumns.head? == some c1Pair.1.name)).bind (fun m => m.onUpdate))) ∧
      c1Pair.2.onDelete = fk.onDelete.orElse (fun _ =>
        (((c1Graph.relations.filter (fun rel => rel.fromTable == c1Draft.name)).find?
          (fun rel => rel.fromColumns.head? == some c1Pair.1.name)).bind (fun m => m.onDelete))) :=
  (handleSaveDraft_relations_spec c1Graph c1Draft (some "T") false (Or.inl rfl)).2
    c1Pair (by decide)

theorem filter_beq_eq_singleton {l : List String} (h : l.Nodup) {b : String} (hb : b ∈ l) :
    l.filter (fun n => n == b) = [b] := by
  induction l with
  | nil => cases hb
  | cons x xs ih =>
    rcases List.nodup_cons.mp h with ⟨hx, hxs⟩
    by_cases hxb : x = b
    · subst hxb
      rw [List.filter_cons, if_pos (by simp)]
      have : xs.filter (fun n => n == x) = [] := by
        rw [List.filter_eq_nil_iff]
        intro a ha
        simp only [beq_iff_eq]
        rintro rfl
        exact hx ha
      rw [this]
    · rw [List.filter_cons, if_neg (by simpa using hxb)]
      rcases List.mem_cons.mp hb with rfl | hb'
      · exact absurd rfl hxb
      · exact ih hxs hb'

/-- Claim C2: in a document containing tables `A` and `B` (names unique,
`B2` fresh) and a relation from `A` to `B`, saving table `B` under the new
name `B2` (origin `B`, draft name `B2`) rewrites that relation's `toTable` to
`B2`, and every scenario whose `tableNames` contained `B` contains `B2`
instead (and no longer contains `B`) in the resulting document. -/
theorem handleSaveDraft_rename_spec (graph : SchemaGraph) (draftTable : Table)
    (A B B2 : String) (r : Relation)
    (hname : draftTable.name = B2)
    (_hAmem : A ∈ graph.tables.map (fun t => t.name))
    (hBmem : B ∈ graph.tables.map (fun t => t.name))
    (hAB : A ≠ B)
    (hnodup : (graph.tables.map (fun t => t.name)).Nodup)
    (hB2new : B2 ∉ graph.tables.map (fun t => t.name))
    (hr : r ∈ graph.relations) (hrfrom : r.fromTable = A) (hrto : r.toTable = B) :
    ({ r with toTable := B2 } ∈
      (handleSaveDraft graph draftTable (some B) false).relations) ∧
    (handleSaveDraft graph draftTable (some B) false).scenarios.length
      = graph.scenarios.length ∧
    ∀ p ∈ graph.scenarios.zip (handleSaveDraft graph draftTable (some B) false).scenarios,
      B ∈ p.1.tableNames → (B2 ∈ p.2.tableNames ∧ B ∉ p.2.tableNames) := by
  have hB2B : B2 ≠ B := fun he => hB2new (he ▸ hBmem)
  have hany : (graph.tables.any (fun table => table.name == B)) = true := by
    rw [List.any_eq_true]
    rcases List.mem_map.mp hBmem with ⟨t, ht, hteq⟩
    exact ⟨t, ht, by simpa using hteq⟩
  have hupd :
      ({ draftTable with
          primaryKey := (draftTable.columns.filter (fun col => col.isPrimary)).map
            (fun col => col.name) } : Table).name = B2 := hname
  -- the saved document, decomposed
  have htables : (handleSaveDraft graph draftTable (some B) false).tables
      = graph.tables.map (fun table =>
          if table.name == B then
            { draftTable with
              primaryKey := (draftTable.columns.filter (fun col => col.isPrimary)).map
                (fun col => col.name) }
          else table) := by
    show (handleGraphChange graph _).tables = _
    rw [show ∀ g next, (handleGraphChange g next).tables = next.tables from fun _ _ => rfl]
    show (if (false || !(graph.tables.any (fun table => table.name == B))) = true then _ else _) = _
    rw [hany]
    rfl
  have hrels : (handleSaveDraft graph draftTable (some B) false).relations
      = (graph.relations.filter (fun rel => !(rel.fromTable == B))).map (fun rel =>
          if rel.toTable == B then { rel with toTable := draftTable.name } else rel)
        ++ buildRelationsFromColumns graph draftTable := rfl
  have hnextnames : ((handleSaveDraft graph draftTable (some B) false).tables.map
      (fun t => t.name))
      = (graph.tables.map (fun t => t.name)).map (fun n => if n = B then B2 else n) := by
    rw [htables, List.map_map, List.map_map]
    apply List.map_congr_left
    intro t _
    simp only [Function.comp]
    by_cases ht : t.name = B
    · rw [if_pos (by simpa using ht), if_pos ht]
      exact hupd
    · rw [if_neg (by simpa using ht), if_neg ht]
  have hmemnext : ∀ n, n ∈ ((handleSaveDraft graph draftTable (some B) false).tables.map
      (fun t => t.name)) ↔
      (n = B2 ∨ (n ∈ graph.tables.map (fun t => t.name) ∧ n ≠ B)) := by
    intro n
    rw [hnextnames]
    constructor
    · intro hn
      rcases List.mem_map.mp hn with ⟨m, hm, him⟩
      by_cases hmB : m = B
      · rw [if_pos hmB] at him
        exact Or.inl him.symm
      · rw [if_neg hmB] at him
        exact Or.inr ⟨him ▸ hm, him ▸ hmB⟩
    · rintro (rfl | ⟨hn, hne⟩)
      · exact List.mem_map.mpr ⟨B, hBmem, if_pos rfl⟩
      · exact List.mem_map.mpr ⟨n, hn, if_neg hne⟩
  have hnextnodup : ((handleSaveDraft graph draftTable (some B) false).tables.map
      (fun t => t.name)).Nodup := by
    rw [hnextnames]
    apply hnodup.map_on
    intro x hx y hy hxy
    by_cases hxB : x = B <;> by_cases hyB : y = B
    · rw [hxB, hyB]
    · rw [if_pos hxB, if_neg hyB] at hxy
      exact absurd (hxy ▸ hy) hB2new
    · rw [if_neg hxB, if_pos hyB] at hxy
      exact absurd (hxy ▸ hx) hB2new
    · rwa [if_neg hxB, if_neg hyB] at hxy
  have hBnotnext : B ∉ ((handleSaveDraft graph draftTable (some B) false).tables.map
      (fun t => t.name)) := by
    rw [hmemnext]
    rintro (h | ⟨_, h⟩)
    · exact hB2B h.symm
    · exact h rfl
  have hB2next : B2 ∈ ((handleSaveDraft graph draftTable (some B) false).tables.map
      (fun t => t.name)) := (hmemnext B2).mpr (Or.inl rfl)
  have hrm : buildRenameMap graph.tables
      ((handleSaveDraft graph draftTable (some B) false).tables) = [(B, B2)] := by
    unfold buildRenameMap
    dsimp only
    rw [jsDedup_eq_self hnodup, jsDedup_eq_self hnextnodup]
    have hremoved : (graph.tables.map (fun t => t.name)).filter
        (fun n => !(((handleSaveDraft graph draftTable (some B) false).tables.map
          (fun t => t.name)).contains n)) = [B] := by
      rw [List.filter_congr ?_]
      · exact filter_beq_eq_singleton hnodup hBmem
      · intro n hn
        by_cases hnB : n = B
        · subst hnB
          simp only [beq_self_eq_true, Bool.not_eq_true']
          simpa [List.contains, List.elem_eq_mem] using hBnotnext
        · have hinnext : n ∈ ((handleSaveDraft graph draftTable (some B) false).tables.map
              (fun t => t.name)) := (hmemnext n).mpr (Or.inr ⟨hn, hnB⟩)
          rw [show (n == B) = false by simpa using hnB]
          simp only [Bool.not_eq_false']
          simpa [List.contains, List.elem_eq_mem] using hinnext
    have hadded : (((handleSaveDraft graph draftTable (some B) false).tables.map
        (fun t => t.name)).filter
        (fun n => !((graph.tables.map (fun t => t.name)).contains n))) = [B2] := by
      rw [List.filter_congr ?_]
      · exact filter_beq_eq_singleton hnextnodup hB2next
      · intro n hn
        rcases (hmemnext n).mp hn with rfl | ⟨hnN, _⟩
        · simp only [beq_self_eq_true, Bool.not_eq_true']
          simpa [List.contains, List.elem_eq_mem] using hB2new
        · have hnB2 : n ≠ B2 := fun he => hB2new (he ▸ hnN)
          rw [show (n == B2) = false by simpa using hnB2]
          simp only [Bool.not_eq_false']
          simpa [List.contains, List.elem_eq_mem] using hnN
    rw [hremoved, hadded]
  have hscen : (handleSaveDraft graph draftTable (some B) false).scenarios
      = sanitizeScenarioTables graph.scenarios
          ((handleSaveDraft graph draftTable (some B) false).tables)
          (buildRenameMap graph.tables
            ((handleSaveDraft graph draftTable (some B) false).tables)) := rfl
  refine ⟨?_, ?_, ?_⟩
  · rw [hrels]
    apply List.mem_append_left
    have hmem : r ∈ graph.relations.filter (fun rel => !(rel.fromTable == B)) := by
      rw [List.mem_filter]
      exact ⟨hr, by simp [hrfrom, hAB]⟩
    rw [List.mem_map]
    refine ⟨r, hmem, ?_⟩
    rw [if_pos (by simp [hrto] : (r.toTable == B) = true), hname]
  · rw [hscen]
    simp [sanitizeScenarioTables]
  · intro p hp
    rw [hscen, hrm] at hp
    rw [show sanitizeScenarioTables graph.scenarios
        ((handleSaveDraft graph draftTable (some B) false).tables) [(B, B2)]
      = graph.scenarios.map (fun scenario =>
          { scenario with
            tableNames :=
              jsDedup ((scenario.tableNames.map (applyRename [(B, B2)])).filter
                (fun n => (((handleSaveDraft graph draftTable (some B) false).tables.map
                  (fun t => t.name))).contains n)) }) from rfl, zip_map_self] at hp
    rcases List.mem_map.mp hp with ⟨s, _, rfl⟩
    intro hBs
    have happly : applyRename [(B, B2)] B = B2 := by
      simp [applyRename, List.lookup]
    constructor
    · rw [mem_jsDedup, List.mem_filter]
      constructor
      · exact List.mem_map.mpr ⟨B, hBs, happly⟩
      · simpa [List.contains, List.elem_eq_mem] using hB2next
    · intro hBin
      rw [mem_jsDedup, List.mem_filter] at hBin
      exact hBnotnext (by simpa [List.contains, List.elem_eq_mem] using hBin.2)

/-- Witness for C2: the spec's end-to-end rename example, `users` renamed to
`customers` with a relation `orders → users` and a scenario listing `users`. -/
theorem handleSaveDraft_rename_spec_witness :
    ({ name := "fk_orders_user", fromTable := "orders", fromColumns := ["user_id"],
       toTable := "customers", toColumns := ["id"] } : Relation) ∈
      (handleSaveDraft
        { tables := [{name := "users"}, {name := "orders"}]
          relations := [{name := "fk_orders_user", fromTable := "orders",
                         fromColumns := ["user_id"], toTable := "users", toColumns := ["id"]}]
          scenarios := [{id := "L1", name := "s", tableNames := ["users"]}] }
        {name := "customers"} (some "users") false).relations := by
  have h := handleSaveDraft_rename_spec
    { tables := [{name := "users"}, {name := "orders"}]
      relations := [{name := "fk_orders_user", fromTable := "orders",
                     fromColumns := ["user_id"], toTable := "users", toColumns := ["id"]}]
      scenarios := [{id := "L1", name := "s", tableNames := ["users"]}] }
    {name := "customers"} "orders" "users" "customers"
    {name := "fk_orders_user", fromTable := "orders", fromColumns := ["user_id"],
     toTable := "users", toColumns := ["id"]}
    rfl (by decide) (by decide) (by decide) (by decide) (by decide) (by decide) rfl rfl
  exact h.1

theorem flatMap_toList_eq_filterMap {α β : Type} (g : α → List β) (f : α → Option β) :
    ∀ l : List α, (∀ a ∈ l, g a = (f a).toList) → l.flatMap g = l.filterMap f := by
  intro l
  induction l with
  | nil => intro _; rfl
  | cons a as ih =>
    intro h
    rw [List.flatMap_cons, List.filterMap_cons, h a (List.mem_cons_self _ _),
      ih (fun b hb => h b (List.mem_cons_of_mem _ hb))]
    cases f a <;> rfl

theorem filterMap_fromColumns_nodup (f : Column → Option Relation)
    (hf : ∀ c rel, f c = some rel → rel.fromColumns = [c.name]) :
    ∀ cols : List Column, (cols.map (fun c => c.name)).Nodup → (cols.filterMap f).Nodup := by
  intro cols
  induction cols with
  | nil => intro _; simp
  | cons c cs ih =>
    intro hnd
    rw [List.map_cons] at hnd
    rcases List.nodup_cons.mp hnd with ⟨hcn, hcs⟩
    rw [List.filterMap_cons]
    cases hfc : f c with
    | none => exact ih hcs
    | some rel =>
      rw [List.nodup_cons]
      refine ⟨?_, ih hcs⟩
      intro hmem
      rcases List.mem_filterMap.mp hmem with ⟨c', hc', hfc'⟩
      have h1 := hf c rel hfc
      have h2 := hf c' rel hfc'
      have hname : c.name = c'.name := by
        have := h1.symm.trans h2
        simpa using this
      exact hcn (hname ▸ List.mem_map_of_mem (fun c => c.name) hc')

/-- Claim C10: for a table `T` whose columns carry no `foreignKey` and a
relation list in which every relation out of `T` is single-column on both
ends, names a distinct column of `T`, hydrating via
`attachColumnForeignKeys` and then re-deriving via `buildRelationsFromColumns`
against the same relations reproduces exactly (as a permutation, with
identical `name`, endpoints, `onUpdate` and `onDelete`) the relations whose
`fromTable` is `T.name`. -/
theorem attachColumnForeignKeys_roundtrip (graph : SchemaGraph) (T : Table)
    (hnofk : ∀ c ∈ T.columns, c.foreignKey = none)
    (hcolnodup : (T.columns.map (fun c => c.name)).Nodup)
    (hsingle : ∀ rel ∈ graph.relations, rel.fromTable = T.name →
      (∃ c ∈ T.columns, rel.fromColumns = [c.name]) ∧ (∃ tc, rel.toColumns = [tc]))
    (hdistinct : ((graph.relations.filter (fun rel => rel.fromTable == T.name)).map
      (fun rel => rel.fromColumns)).Nodup) :
    List.Perm
      (buildRelationsFromColumns graph (attachColumnForeignKeys T graph.relations))
      (graph.relations.filter (fun rel => rel.fromTable == T.name)) := by
  have hfind_cols : ∀ (c : Column) (rel : Relation),
      (graph.relations.filter (fun rel => rel.fromTable == T.name)).find?
        (fun rel => rel.fromColumns.head? == some c.name) = some rel →
      rel.fromColumns = [c.name] := by
    intro c rel hfind
    have hmF : rel ∈ graph.relations.filter (fun rel => rel.fromTable == T.name) :=
      List.mem_of_find?_eq_some hfind
    have hmpred := List.find?_some hfind
    rcases List.mem_filter.mp hmF with ⟨hmem, hft⟩
    rcases hsingle rel hmem (by simpa using hft) with ⟨⟨c', _, hfc'⟩, _⟩
    rw [hfc'] at hmpred ⊢
    have : c'.name = c.name := by simpa using hmpred
    rw [this]
  have hrelated : graph.relations.filter (fun rel =>
      rel.fromTable == T.name && rel.fromColumns.length == 1 && rel.toColumns.length == 1)
      = graph.relations.filter (fun rel => rel.fromTable == T.name) := by
    apply List.filter_congr
    intro rel hrel
    cases hft : (rel.fromTable == T.name) with
    | false => simp [hft]
    | true =>
      rcases hsingle rel hrel (by simpa using hft) with ⟨⟨c, _, hfc⟩, ⟨tc, htc⟩⟩
      simp [hft, hfc, htc]
  have hbody : ∀ c ∈ T.columns,
      ((fun column =>
        match column.foreignKey with
        | none => ([] : List Relation)
        | some fk =>
          let matched := (graph.relations.filter
            (fun rel => rel.fromTable == T.name)).find?
              (fun rel => rel.fromColumns.head? == some column.name)
          [{ name := (matched.map (fun m => m.name)).getD ("fk_" ++ T.name ++ "_" ++ column.name)
             fromTable := T.name
             fromColumns := [column.name]
             toTable := fk.table
             toColumns := [fk.column]
             onDelete := fk.onDelete.orElse (fun _ => matched.bind (fun m => m.onDelete))
             onUpdate := fk.onUpdate.orElse (fun _ => matched.bind (fun m => m.onUpdate)) }])
        ((fun column =>
          match (graph.relations.filter (fun rel => rel.fromTable == T.name)).find?
              (fun rel => rel.fromColumns.head? == some column.name) with
          | none => column
          | some m =>
            { column with
              foreignKey := some
                { table := m.toTable
                  column := m.toColumns.headD ""
                  onDelete := m.onDelete
                  onUpdate := m.onUpdate } }) c))
      = ((graph.relations.filter (fun rel => rel.fromTable == T.name)).find?
          (fun rel => rel.fromColumns.head? == some c.name)).toList := by
    intro c hc
    dsimp only
    cases hfind : (graph.relations.filter (fun rel => rel.fromTable == T.name)).find?
        (fun rel => rel.fromColumns.head? == some c.name) with
    | none =>
      rw [hfind]
      dsimp only
      rw [hnofk c hc]
      rfl
    | some m =>
      rw [hfind]
      dsimp only
      have hfcm : m.fromColumns = [c.name] := hfind_cols c m hfind
      have hmF : m ∈ graph.relations.filter (fun rel => rel.fromTable == T.name) :=
        List.mem_of_find?_eq_some hfind
      rcases List.mem_filter.mp hmF with ⟨hmem, hft⟩
      have hmft : m.fromTable = T.name := by simpa using hft
      rcases hsingle m hmem hmft with ⟨_, ⟨tc, htc⟩⟩
      simp only [Option.toList_some, Option.map_some', Option.getD_some, Option.some_bind]
      rw [List.cons.injEq]
      refine ⟨?_, rfl⟩
      cases m with
      | mk mname mft mfc mtt mtc mou mod =>
        simp only at hfcm hmft htc ⊢
        rw [Relation.mk.injEq]
        refine ⟨rfl, hmft.symm, hfcm.symm, rfl, ?_, ?_, ?_⟩
        · rw [htc]
          rfl
        · exact option_orElse_self mou
        · exact option_orElse_self mod
  have hderived : buildRelationsFromColumns graph (attachColumnForeignKeys T graph.relations)
      = T.columns.filterMap (fun c =>
          (graph.relations.filter (fun rel => rel.fromTable == T.name)).find?
            (fun rel => rel.fromColumns.head? == some c.name)) := by
    unfold buildRelationsFromColumns attachColumnForeignKeys
    dsimp only
    rw [hrelated, List.flatMap_map]
    exact flatMap_toList_eq_filterMap _ _ T.columns hbody
  rw [hderived]
  have hD : (T.columns.filterMap (fun c =>
      (graph.relations.filter (fun rel => rel.fromTable == T.name)).find?
        (fun rel => rel.fromColumns.head? == some c.name))).Nodup :=
    filterMap_fromColumns_nodup _ hfind_cols T.columns hcolnodup
  have hFnd : (graph.relations.filter (fun rel => rel.fromTable == T.name)).Nodup :=
    List.Nodup.of_map _ hdistinct
  rw [List.perm_ext_iff_of_nodup hD hFnd]
  intro rel
  constructor
  · intro hmem
    rcases List.mem_filterMap.mp hmem with ⟨c, _, hfind⟩
    exact List.mem_of_find?_eq_some hfind
  · intro hmem
    rcases List.mem_filter.mp hmem with ⟨hmemrels, hft⟩
    rcases hsingle rel hmemrels (by simpa using hft) with ⟨⟨c, hcmem, hfc⟩, _⟩
    apply List.mem_filterMap.mpr
    refine ⟨c, hcmem, ?_⟩
    apply find?_eq_some_of_unique hmem
    · rw [hfc]
      simp
    · intro rel' hrel' hpred'
      have hfc' : rel'.fromColumns = [c.name] := by
        rcases List.mem_filter.mp hrel' with ⟨hmem', hft'⟩
        rcases hsingle rel' hmem' (by simpa using hft') with ⟨⟨c'', _, hfc''⟩, _⟩
        rw [hfc''] at hpred' ⊢
        have : c''.name = c.name := by simpa using hpred'
        rw [this]
      exact List.inj_on_of_nodup_map hdistinct hrel' hmem (by rw [hfc', hfc])

/-- Witness for C10: one table `T` with a single column `a` and one
single-column relation out of it round-trips through hydration and
re-derivation. -/
theorem attachColumnForeignKeys_roundtrip_witness :
    List.Perm
      (buildRelationsFromColumns
        { tables := [{name := "T", columns := [{name := "a", type := "int"}]}]
          relations := [{name := "fk0", fromTable := "T", fromColumns := ["a"],
                         toTable := "U", toColumns := ["id"], onUpdate := some "CASCADE"}] }
        (attachColumnForeignKeys {name := "T", columns := [{name := "a", type := "int"}]}
          [{name := "fk0", fromTable := "T", fromColumns := ["a"],
            toTable := "U", toColumns := ["id"], onUpdate := some "CASCADE"}]))
      ([{name := "fk0", fromTable := "T", fromColumns := ["a"],
         toTable := "U", toColumns := ["id"], onUpdate := some "CASCADE"}].filter
        (fun rel => rel.fromTable == "T")) :=
  attachColumnForeignKeys_roundtrip
    { tables := [{name := "T", columns := [{name := "a", type := "int"}]}]
      relations := [{name := "fk0", fromTable := "T", fromColumns := ["a"],
                     toTable := "U", toColumns := ["id"], onUpdate := some "CASCADE"}] }
    {name := "T", columns := [{name := "a", type := "int"}]}
    (by decide) (by decide)
    (by
      intro rel hrel _
      have hrel' : rel =
          ({name := "fk0", fromTable := "T", fromColumns := ["a"], toTable := "U", toColumns := ["id"], onUpdate := some "CASCADE"} : Relation) := by
        simpa using hrel
      subst hrel'
      exact ⟨⟨{name := "a", type := "int"}, by decide, rfl⟩, ⟨"id", rfl⟩⟩)
    (by decide)

end VisualDB
